import Mathlib

/-!
A shallow embedding of the `Linarith` tactic from `estimates/linarith.py`.

The tactic gathers the hypotheses of a proof state together with the
negation of the goal, extracts from each hypothesis an option list of
candidate linear constraints (a two-way case split for disequalities),
forms the Cartesian product of those option lists into scenarios (sets of
constraints), and queries an external feasibility oracle on each scenario,
short-circuiting on the first feasible one.  A feasible scenario means the
goal cannot be closed (the state is returned unchanged); if every scenario
is infeasible the goal is closed (empty list of residual states).

Symbolic expressions are modelled as formal linear expressions over
variables carrying sympy-style three-valued assumption flags; the
feasibility oracle (`estimates/linprog.py`, external to the core) is a
parameter of the embedding.
-/

namespace Estimates

/-- A symbolic variable with its assumption flags.  In the source these are
sympy symbols whose assumption queries answer `True`, `False` or `None`; we
model the three-valued answers with `Option Bool`.  Python truthiness of an
answer corresponds to `= some true`. -/
structure Var where
  name : String
  is_real : Option Bool
  is_integer : Option Bool
  is_positive : Option Bool
  is_nonnegative : Option Bool
  deriving DecidableEq, Repr

/-- A linear symbolic expression: a formal sum of rational multiples of
variables, plus a rational constant term. -/
structure LinExpr where
  coeffs : List (Var × ℚ)
  const : ℚ
  deriving DecidableEq, Repr

/-- Total coefficient attached to variable `v` by an association list. -/
def coeffOfPairs (l : List (Var × ℚ)) (v : Var) : ℚ :=
  ((l.filter (fun p => decide (p.1 = v))).map Prod.snd).sum

/-- Coefficient of `v` in a linear expression. -/
def LinExpr.coeffOf (e : LinExpr) (v : Var) : ℚ :=
  coeffOfPairs e.coeffs v

/-- The variables mentioned by a linear expression, without repetition. -/
def LinExpr.varList (e : LinExpr) : List Var :=
  (e.coeffs.map Prod.fst).dedup

/-- Formal difference of two linear expressions (sympy `L - R`). -/
def LinExpr.sub (a b : LinExpr) : LinExpr :=
  ⟨a.coeffs ++ b.coeffs.map (fun p => (p.1, -p.2)), a.const - b.const⟩

/-- The canonical variable-to-coefficient association of an expression:
each mentioned variable with its combined coefficient, zero coefficients
dropped.  This models the variable keys of sympy `as_coefficients_dict`
(the constant key `S(1)` is kept separately in `LinExpr.const`). -/
def LinExpr.collect (e : LinExpr) : List (Var × ℚ) :=
  (e.varList.map (fun v => (v, e.coeffOf v))).filter (fun p => decide (p.2 ≠ 0))

/-- An expression is a plain number when every variable coefficient
cancels; sympy relations between such expressions auto-evaluate. -/
def LinExpr.isNumber (e : LinExpr) : Bool :=
  e.collect.isEmpty

/-- The hypothesis shapes the tactic can meet: the five sympy relation
classes `Eq`, `LessThan`, `StrictLessThan`, `GreaterThan`,
`StrictGreaterThan`, the disequality `Ne`, a typing fact `Type` about one
variable, the sympy booleans, and an unrecognized shape. -/
inductive Hypothesis where
  | eq (L R : LinExpr)
  | le (L R : LinExpr)
  | lt (L R : LinExpr)
  | ge (L R : LinExpr)
  | gt (L R : LinExpr)
  | ne (L R : LinExpr)
  | type (v : Var)
  | sFalse
  | sTrue
  | other
  deriving DecidableEq, Repr

/-- Construction of `StrictLessThan(a, b)`: sympy auto-evaluates the
relation to a boolean when the difference of the two sides is a plain
number, and otherwise keeps it unevaluated. -/
def mkLt (a b : LinExpr) : Hypothesis :=
  if (LinExpr.sub a b).isNumber then
    (if (LinExpr.sub a b).const < 0 then Hypothesis.sTrue else Hypothesis.sFalse)
  else Hypothesis.lt a b

/-- Modelled from the spec: logical negation of the goal (`Not(goal)` in
the source; sympy rewrites the negation of a relational to the complementary
relational, swaps the boolean constants, and leaves other shapes wrapped,
hence unrecognized). -/
def sym_not : Hypothesis → Hypothesis
  | .eq L R => .ne L R
  | .ne L R => .eq L R
  | .lt L R => .ge L R
  | .le L R => .gt L R
  | .ge L R => .lt L R
  | .gt L R => .le L R
  | .sFalse => .sTrue
  | .sTrue => .sFalse
  | .type _ => .other
  | .other => .other

/-- Modelled from the spec: the proof-state interface
(`estimates/proofstate.py` is not among the sources).  A state carries the
hypotheses in scope and the goal. -/
structure ProofState where
  hypotheses : List Hypothesis
  goal : Hypothesis
  deriving DecidableEq, Repr

/-- Modelled from the spec: `list_hypotheses(variables=True)` returns the
hypotheses in scope, including variable typing facts. -/
def ProofState.list_hypotheses (s : ProofState) : List Hypothesis :=
  s.hypotheses

/-- Modelled from the spec: `state.copy()` returns an unchanged copy of the
state; in a value semantics a copy is the value itself. -/
def ProofState.copy (s : ProofState) : ProofState :=
  s

/-- Lines 35-38 of the source: the hypotheses and the negated goal are
collected into a Python `set`; we model the set as a duplicate-free list. -/
def gatherHypotheses (s : ProofState) : List Hypothesis :=
  (s.list_hypotheses ++ [sym_not s.goal]).dedup

/-- Lines 41-49 of the source: the option list of one hypothesis.  The five
relation classes and `Type` each give the singleton option `[hypothesis]`;
`Ne` gives the two constructed strict orderings; anything else gives no
option list at all. -/
def optionList : Hypothesis → Option (List Hypothesis)
  | .eq L R => some [.eq L R]
  | .le L R => some [.le L R]
  | .lt L R => some [.lt L R]
  | .ge L R => some [.ge L R]
  | .gt L R => some [.gt L R]
  | .type v => some [.type v]
  | .ne L R => some [mkLt L R, mkLt R L]
  | _ => none

/-- `itertools.product`: the Cartesian product of a list of lists, leftmost
factor varying slowest. -/
def cartProd {α : Type*} : List (List α) → List (List α)
  | [] => [[]]
  | l :: ls => l.flatMap (fun a => (cartProd ls).map (fun c => a :: c))

/-- Lines 52-54 of the source: one scenario per choice in the Cartesian
product of the option lists; `set(choice)` is modelled by `List.dedup`. -/
def scenarioList (s : ProofState) : List (List Hypothesis) :=
  (cartProd ((gatherHypotheses s).filterMap optionList)).map List.dedup

/-- The relation kinds of the normalized constraint representation, the
string tags of the source (`"eq"`, `"leq"`, `"lt"`, `"geq"`, `"gt"`). -/
inductive RelKind where
  | eq
  | leq
  | lt
  | geq
  | gt
  deriving DecidableEq, Repr

/-- A normalized linear constraint `Inequality(coeffs, rel, const)` from
`estimates/linprog.py`, denoting `sum of coeffs[v] * v  rel  const`. -/
structure Inequality where
  coeffs : List (Var × ℚ)
  rel : RelKind
  const : ℚ
  deriving DecidableEq, Repr

/-- Coefficient of `v` in a normalized constraint. -/
def Inequality.coeffOf (q : Inequality) (v : Var) : ℚ :=
  coeffOfPairs q.coeffs v

/-- The hypothesis constructor named by a relation kind: the direct image
of the source relation classes under Eq to eq, LessThan to leq,
StrictLessThan to lt, GreaterThan to geq, StrictGreaterThan to gt. -/
def relHyp : RelKind → LinExpr → LinExpr → Hypothesis
  | .eq => .eq
  | .leq => .le
  | .lt => .lt
  | .geq => .ge
  | .gt => .gt

/-- Lines 82-110 of the source: normalization of a relational hypothesis.
The coefficient dictionary of `L - R` is computed; if any variable key is
not known real the hypothesis is dropped; otherwise the constant term is
negated and the relation kind mapped directly. -/
def relIneq (k : RelKind) (L R : LinExpr) : Option Inequality :=
  let cs := (LinExpr.sub L R).collect
  if cs.all (fun p => decide (p.1.is_real = some true)) then
    some ⟨cs, k, -((LinExpr.sub L R).const)⟩
  else
    none

/-- Lines 65-110 of the source: the constraint contributed by one element
of a scenario, if any.  A `Type` fact contributes the positivity constraint
of its variable (with the integrality gap); a relational fact is normalized
by `relIneq`; everything else contributes nothing. -/
def toInequality : Hypothesis → Option Inequality
  | .type v =>
    if v.is_positive = some true then
      if v.is_integer = some true then some ⟨[(v, 1)], RelKind.geq, 1⟩
      else some ⟨[(v, 1)], RelKind.gt, 0⟩
    else if v.is_nonnegative = some true then some ⟨[(v, 1)], RelKind.geq, 0⟩
    else none
  | .eq L R => relIneq RelKind.eq L R
  | .le L R => relIneq RelKind.leq L R
  | .lt L R => relIneq RelKind.lt L R
  | .ge L R => relIneq RelKind.geq L R
  | .gt L R => relIneq RelKind.gt L R
  | _ => none

/-- The inequality system sent to the oracle for one scenario. -/
def scenarioIneqs (sc : List Hypothesis) : List Inequality :=
  sc.filterMap toInequality

/-- The observable outcome of the scenario loop of lines 56-118:
whether a feasible scenario was found, the recorded infeasibility
certificates (`proofs`), and the inequality systems actually submitted to
the oracle in order (`queried`, the source's `inequalities_list`, appended
to exactly once immediately before each oracle call). -/
structure RunResult (κ : Type*) where
  found : Bool
  proofs : List κ
  queried : List (List Inequality)
  deriving DecidableEq, Repr

/-- Lines 56-118 of the source: the scenario loop.  A scenario containing
the statically-false constraint is skipped outright; otherwise its
inequality system is recorded and the oracle queried; on a feasible answer
the loop breaks, on an infeasible one the certificate is recorded and the
loop continues. -/
def runScenarios {κ : Type*} (feasibility : List Inequality → Bool × κ) :
    List (List Hypothesis) → RunResult κ
  | [] => ⟨false, [], []⟩
  | sc :: rest =>
    if Hypothesis.sFalse ∈ sc then
      runScenarios feasibility rest
    else if (feasibility (scenarioIneqs sc)).1 then
      ⟨true, [], [scenarioIneqs sc]⟩
    else
      ⟨(runScenarios feasibility rest).found,
       (feasibility (scenarioIneqs sc)).2 :: (runScenarios feasibility rest).proofs,
       scenarioIneqs sc :: (runScenarios feasibility rest).queried⟩

/-- Lines 33-153 of the source: the tactic entry point, with the external
oracle `feasibility` (from `estimates/linprog.py`) passed as a parameter.
If some scenario was found feasible the unchanged copy of the state is
returned as the single residual state; otherwise the goal is closed. -/
def activate {κ : Type*} (feasibility : List Inequality → Bool × κ)
    (state : ProofState) : List ProofState :=
  if (runScenarios feasibility (scenarioList state)).found then
    [state.copy]
  else
    []

/-- Whether a hypothesis is a disequality. -/
def Hypothesis.isNe : Hypothesis → Bool
  | .ne _ _ => true
  | _ => false

/-- The recognized non-disequality hypotheses, each of which contributes the
singleton option list `[hypothesis]`. -/
def keepSingleton : Hypothesis → Option Hypothesis
  | .eq L R => some (.eq L R)
  | .le L R => some (.le L R)
  | .lt L R => some (.lt L R)
  | .ge L R => some (.ge L R)
  | .gt L R => some (.gt L R)
  | .type v => some (.type v)
  | _ => none

/-- Concrete variables used to instantiate the theorems on executable
inputs: two plain real variables, a variable of unknown realness (e.g. a
vector-valued quantity) and a positive integer variable. -/
def xVar : Var := ⟨"x", some true, none, none, none⟩

def yVar : Var := ⟨"y", some true, none, none, none⟩

def uVar : Var := ⟨"u", none, none, none, none⟩

def nVar : Var := ⟨"n", some true, some true, some true, some true⟩

def xE : LinExpr := ⟨[(xVar, 1)], 0⟩

def yE : LinExpr := ⟨[(yVar, 1)], 0⟩

def uE : LinExpr := ⟨[(uVar, 1)], 0⟩

def zeroE : LinExpr := ⟨[], 0⟩

/-! ### Lemmas about the scenario loop -/

theorem runScenarios_found_iff {κ : Type*} (f : List Inequality → Bool × κ)
    (scs : List (List Hypothesis)) :
    (runScenarios f scs).found = true ↔
      ∃ sc ∈ scs, Hypothesis.sFalse ∉ sc ∧ (f (scenarioIneqs sc)).1 = true := by
  induction scs with
  | nil => simp [runScenarios]
  | cons sc rest ih =>
    rw [runScenarios]
    by_cases hmem : Hypothesis.sFalse ∈ sc
    · rw [if_pos hmem, ih]
      constructor
      · rintro ⟨x, hx, h1, h2⟩
        exact ⟨x, List.mem_cons_of_mem _ hx, h1, h2⟩
      · rintro ⟨x, hx, h1, h2⟩
        rcases List.mem_cons.mp hx with rfl | hx'
        · exact absurd hmem h1
        · exact ⟨x, hx', h1, h2⟩
    · rw [if_neg hmem]
      by_cases hf : (f (scenarioIneqs sc)).1 = true
      · rw [if_pos hf]
        exact iff_of_true rfl ⟨sc, List.mem_cons_self sc rest, hmem, hf⟩
      · rw [if_neg hf]
        show (runScenarios f rest).found = true ↔ _
        rw [ih]
        constructor
        · rintro ⟨x, hx, h1, h2⟩
          exact ⟨x, List.mem_cons_of_mem _ hx, h1, h2⟩
        · rintro ⟨x, hx, h1, h2⟩
          rcases List.mem_cons.mp hx with rfl | hx'
          · exact absurd h2 hf
          · exact ⟨x, hx', h1, h2⟩

/-! ### Lemmas about the Cartesian product of option lists -/

theorem cartProd_singletons_append {α : Type*} (K : List α) (tail : List (List α)) :
    cartProd (K.map (fun h => [h]) ++ tail) = (cartProd tail).map (fun c => K ++ c) := by
  induction K with
  | nil => simp [cartProd]
  | cons a K ih =>
    simp only [List.map_cons, List.cons_append, cartProd, List.flatMap_cons,
      List.flatMap_nil, List.append_nil, List.append_eq, ih, List.map_map]
    rfl

theorem cartProd_singletons {α : Type*} (K : List α) :
    cartProd (K.map (fun h => [h])) = [K] := by
  have := cartProd_singletons_append K ([] : List (List α))
  simpa [cartProd] using this

theorem mem_cartProd_cons {α : Type*} (l : List α) (ls : List (List α)) (cs : List α) :
    cs ∈ cartProd (l :: ls) ↔ ∃ a ∈ l, ∃ c ∈ cartProd ls, cs = a :: c := by
  simp only [cartProd, List.mem_flatMap, List.mem_map]
  constructor
  · rintro ⟨a, ha, c, hc, rfl⟩
    exact ⟨a, ha, c, hc, rfl⟩
  · rintro ⟨a, ha, c, hc, rfl⟩
    exact ⟨a, ha, c, hc, rfl⟩

theorem cartProd_pair_singletons {α : Type*} (c₁ c₂ : α) (K : List α) :
    cartProd ([c₁, c₂] :: K.map (fun h => [h])) = [c₁ :: K, c₂ :: K] := by
  simp [cartProd, cartProd_singletons]

theorem mem_cartProd_append {α : Type*} (A B : List (List α)) (cs : List α) :
    cs ∈ cartProd (A ++ B) ↔
      ∃ xs ∈ cartProd A, ∃ ys ∈ cartProd B, cs = xs ++ ys := by
  induction A generalizing cs with
  | nil => simp [cartProd]
  | cons l A ih =>
    rw [List.cons_append, mem_cartProd_cons]
    constructor
    · rintro ⟨a, ha, c, hc, rfl⟩
      obtain ⟨xs, hxs, ys, hys, rfl⟩ := (ih c).mp hc
      exact ⟨a :: xs, (mem_cartProd_cons _ _ _).mpr ⟨a, ha, xs, hxs, rfl⟩, ys, hys, rfl⟩
    · rintro ⟨xs, hxs, ys, hys, rfl⟩
      obtain ⟨a, ha, xs', hxs', rfl⟩ := (mem_cartProd_cons _ _ _).mp hxs
      exact ⟨a, ha, xs' ++ ys, (ih _).mpr ⟨xs', hxs', ys, hys, rfl⟩, rfl⟩

/-! ### Lemmas about dedup (the set view of a scenario) -/

theorem dedup_middle_split {α : Type*} [DecidableEq α] (h : α) (l₁ l₂ : List α)
    (h1 : h ∉ l₁) (h2 : h ∉ l₂) :
    ∃ D₁ D₂, (l₁ ++ h :: l₂).dedup = D₁ ++ h :: D₂ ∧ (l₁ ++ l₂).dedup = D₁ ++ D₂ := by
  induction l₁ with
  | nil =>
    refine ⟨[], l₂.dedup, ?_, rfl⟩
    simp [List.dedup_cons_of_not_mem h2]
  | cons a l₁ ih =>
    have hah : a ≠ h := fun e => h1 (e ▸ List.mem_cons_self a l₁)
    obtain ⟨D₁, D₂, e1, e2⟩ := ih (fun hm => h1 (List.mem_cons_of_mem _ hm))
    by_cases hm : a ∈ l₁ ++ l₂
    · have hm' : a ∈ l₁ ++ h :: l₂ := by
        rcases List.mem_append.mp hm with hl | hr
        · exact List.mem_append.mpr (Or.inl hl)
        · exact List.mem_append.mpr (Or.inr (List.mem_cons_of_mem _ hr))
      refine ⟨D₁, D₂, ?_, ?_⟩
      · rw [List.cons_append, List.dedup_cons_of_mem hm', e1]
      · rw [List.cons_append, List.dedup_cons_of_mem hm, e2]
    · have hm' : a ∉ l₁ ++ h :: l₂ := by
        intro hx
        rcases List.mem_append.mp hx with hl | hr
        · exact hm (List.mem_append.mpr (Or.inl hl))
        · rcases List.mem_cons.mp hr with e | hr'
          · exact hah e
          · exact hm (List.mem_append.mpr (Or.inr hr'))
      refine ⟨a :: D₁, D₂, ?_, ?_⟩
      · rw [List.cons_append, List.dedup_cons_of_not_mem hm', e1, List.cons_append]
      · rw [List.cons_append, List.dedup_cons_of_not_mem hm, e2, List.cons_append]

theorem filterMap_dedup_middle_none {α β : Type*} [DecidableEq α]
    (f : α → Option β) (c : α) (hc : f c = none) (l₁ l₂ : List α) :
    ((l₁ ++ c :: l₂).dedup).filterMap f = ((l₁ ++ l₂).dedup).filterMap f := by
  induction l₁ with
  | nil =>
    by_cases hm : c ∈ l₂
    · simp [List.dedup_cons_of_mem hm]
    · simp [List.dedup_cons_of_not_mem hm, List.filterMap_cons, hc]
  | cons a l₁ ih =>
    by_cases hac : a = c
    · subst hac
      have hm' : a ∈ l₁ ++ a :: l₂ := List.mem_append.mpr (Or.inr (List.mem_cons_self a l₂))
      by_cases hm : a ∈ l₁ ++ l₂
      · rw [List.cons_append, List.dedup_cons_of_mem hm', ih, List.cons_append,
          List.dedup_cons_of_mem hm]
      · rw [List.cons_append, List.dedup_cons_of_mem hm', ih, List.cons_append,
          List.dedup_cons_of_not_mem hm]
        simp [List.filterMap_cons, hc]
    · have hiff : a ∈ l₁ ++ c :: l₂ ↔ a ∈ l₁ ++ l₂ := by
        simp only [List.mem_append, List.mem_cons]
        constructor
        · rintro (h | h | h)
          · exact Or.inl h
          · exact absurd h hac
          · exact Or.inr h
        · rintro (h | h)
          · exact Or.inl h
          · exact Or.inr (Or.inr h)
      by_cases hm : a ∈ l₁ ++ l₂
      · rw [List.cons_append, List.dedup_cons_of_mem (hiff.mpr hm), ih, List.cons_append,
          List.dedup_cons_of_mem hm]
      · rw [List.cons_append, List.dedup_cons_of_not_mem (fun hx => hm (hiff.mp hx)),
          List.cons_append, List.dedup_cons_of_not_mem hm]
        cases hfa : f a <;> simp [List.filterMap_cons, hfa, ih]

/-! ### Lemmas about coefficient extraction -/

theorem coeffOfPairs_nil (v : Var) : coeffOfPairs [] v = 0 := rfl

theorem coeffOfPairs_cons (p : Var × ℚ) (l : List (Var × ℚ)) (v : Var) :
    coeffOfPairs (p :: l) v = (if p.1 = v then p.2 else 0) + coeffOfPairs l v := by
  by_cases h : p.1 = v <;> simp [coeffOfPairs, List.filter_cons, h]

theorem coeffOfPairs_append (l₁ l₂ : List (Var × ℚ)) (v : Var) :
    coeffOfPairs (l₁ ++ l₂) v = coeffOfPairs l₁ v + coeffOfPairs l₂ v := by
  simp [coeffOfPairs, List.filter_append]

theorem coeffOfPairs_negMap (l : List (Var × ℚ)) (v : Var) :
    coeffOfPairs (l.map (fun p => (p.1, -p.2))) v = -coeffOfPairs l v := by
  induction l with
  | nil => simp [coeffOfPairs]
  | cons p l ih =>
    by_cases h : p.1 = v <;>
      simp only [List.map_cons, coeffOfPairs_cons, h, if_true, if_false, ih] <;> ring

theorem coeffOfPairs_eq_zero (l : List (Var × ℚ)) (v : Var)
    (h : v ∉ l.map Prod.fst) : coeffOfPairs l v = 0 := by
  induction l with
  | nil => rfl
  | cons p l ih =>
    have h1 : ¬p.1 = v := fun e => h (by simp [e])
    have h2 : v ∉ l.map Prod.fst := fun hm => h (by simp at hm ⊢; tauto)
    simp [coeffOfPairs_cons, h1, ih h2]

theorem LinExpr.coeffOf_sub (a b : LinExpr) (v : Var) :
    (LinExpr.sub a b).coeffOf v = a.coeffOf v - b.coeffOf v := by
  simp only [LinExpr.coeffOf, LinExpr.sub, coeffOfPairs_append, coeffOfPairs_negMap]
  ring

theorem LinExpr.mem_varList (e : LinExpr) (v : Var) :
    v ∈ e.varList ↔ v ∈ e.coeffs.map Prod.fst := List.mem_dedup

theorem LinExpr.mem_varList_sub (a b : LinExpr) (v : Var) :
    v ∈ (LinExpr.sub a b).varList ↔ v ∈ a.varList ∨ v ∈ b.varList := by
  simp only [LinExpr.mem_varList, LinExpr.sub, List.map_append, List.map_map,
    List.mem_append]
  constructor
  · rintro (h | h)
    · exact Or.inl h
    · refine Or.inr ?_
      obtain ⟨p, hp, hv⟩ := List.mem_map.mp h
      exact List.mem_map.mpr ⟨p, hp, hv⟩
  · rintro (h | h)
    · exact Or.inl h
    · refine Or.inr ?_
      obtain ⟨p, hp, hv⟩ := List.mem_map.mp h
      exact List.mem_map.mpr ⟨p, hp, hv⟩

theorem LinExpr.coeffOf_eq_zero_of_not_mem (e : LinExpr) (v : Var)
    (h : v ∉ e.varList) : e.coeffOf v = 0 :=
  coeffOfPairs_eq_zero _ _ (fun hm => h ((LinExpr.mem_varList e v).mpr hm))

theorem coeffOfPairs_graphFilter (l : List Var) (g : Var → ℚ) (v : Var) (hl : l.Nodup) :
    coeffOfPairs ((l.map (fun u => (u, g u))).filter (fun p => decide (p.2 ≠ 0))) v =
      if v ∈ l then g v else 0 := by
  induction l with
  | nil => simp [coeffOfPairs]
  | cons u l ih =>
    obtain ⟨hu, hl'⟩ := List.nodup_cons.mp hl
    have tail_zero : ∀ w : Var, w ∉ l →
        coeffOfPairs ((l.map (fun x => (x, g x))).filter (fun p => decide (p.2 ≠ 0))) w = 0 := by
      intro w hw
      apply coeffOfPairs_eq_zero
      intro hmem
      obtain ⟨p, hp, hfst⟩ := List.mem_map.mp hmem
      obtain ⟨x, hx, rfl⟩ := List.mem_map.mp (List.mem_filter.mp hp).1
      exact hw (hfst ▸ hx)
    rw [List.map_cons, List.filter_cons]
    by_cases hz : g u = 0
    · have hd : (decide ((u, g u).2 ≠ 0)) = false := by simp [hz]
      rw [hd]
      simp only [Bool.false_eq_true, if_false, ih hl']
      by_cases huv : u = v
      · subst huv
        rw [if_neg hu, if_pos (List.mem_cons_self u l)]
        exact hz.symm
      · have hmm : v ∈ u :: l ↔ v ∈ l :=
          ⟨fun h => (List.mem_cons.mp h).resolve_left (fun e => huv e.symm),
           List.mem_cons_of_mem _⟩
        simp only [hmm]
    · have hd : (decide ((u, g u).2 ≠ 0)) = true := by simp [hz]
      rw [hd]
      simp only [if_true, coeffOfPairs_cons, ih hl']
      by_cases huv : u = v
      · subst huv
        rw [if_pos rfl, if_neg hu, if_pos (List.mem_cons_self u l)]
        ring
      · have hmm : v ∈ u :: l ↔ v ∈ l :=
          ⟨fun h => (List.mem_cons.mp h).resolve_left (fun e => huv e.symm),
           List.mem_cons_of_mem _⟩
        rw [if_neg (show ¬(u, g u).1 = v from huv)]
        simp only [hmm, zero_add]

theorem coeffOfPairs_collect (e : LinExpr) (v : Var) :
    coeffOfPairs e.collect v = e.coeffOf v := by
  have hnd : e.varList.Nodup := List.nodup_dedup _
  rw [LinExpr.collect, coeffOfPairs_graphFilter e.varList (fun u => e.coeffOf u) v hnd]
  by_cases h : v ∈ e.varList
  · rw [if_pos h]
  · rw [if_neg h]
    exact (e.coeffOf_eq_zero_of_not_mem v h).symm

theorem LinExpr.mem_collect (e : LinExpr) (p : Var × ℚ) :
    p ∈ e.collect ↔ p.1 ∈ e.varList ∧ p.2 = e.coeffOf p.1 ∧ p.2 ≠ 0 := by
  simp only [LinExpr.collect, List.mem_filter, List.mem_map, decide_eq_true_eq]
  constructor
  · rintro ⟨⟨u, hu, rfl⟩, hnz⟩
    exact ⟨hu, rfl, hnz⟩
  · rintro ⟨h1, h2, h3⟩
    refine ⟨⟨p.1, h1, ?_⟩, h3⟩
    cases p
    simp only at h2
    simp [h2]

theorem LinExpr.collect_eq_nil_iff (e : LinExpr) :
    e.collect = [] ↔ ∀ v ∈ e.varList, e.coeffOf v = 0 := by
  constructor
  · intro h v hv
    by_contra hnz
    have : (v, e.coeffOf v) ∈ e.collect :=
      (e.mem_collect (v, e.coeffOf v)).mpr ⟨hv, rfl, hnz⟩
    simp [h] at this
  · intro h
    rw [List.eq_nil_iff_forall_not_mem]
    intro p hp
    obtain ⟨h1, h2, h3⟩ := (e.mem_collect p).mp hp
    exact h3 (h2.trans (h p.1 h1))

theorem LinExpr.isNumber_sub_comm (a b : LinExpr) :
    (LinExpr.sub a b).isNumber = true ↔ (LinExpr.sub b a).isNumber = true := by
  simp only [LinExpr.isNumber, List.isEmpty_iff, LinExpr.collect_eq_nil_iff]
  constructor
  · intro h v hv
    have hv' : v ∈ (LinExpr.sub a b).varList := by
      rw [LinExpr.mem_varList_sub] at hv ⊢
      exact hv.symm
    have := h v hv'
    rw [LinExpr.coeffOf_sub] at this ⊢
    linarith
  · intro h v hv
    have hv' : v ∈ (LinExpr.sub b a).varList := by
      rw [LinExpr.mem_varList_sub] at hv ⊢
      exact hv.symm
    have := h v hv'
    rw [LinExpr.coeffOf_sub] at this ⊢
    linarith

/-! ### Lemmas about option lists -/

theorem optionList_of_not_isNe (h : Hypothesis) (hne : h.isNe = false) :
    optionList h = (keepSingleton h).map (fun x => [x]) := by
  cases h <;> first
    | rfl
    | exact absurd hne (by simp [Hypothesis.isNe])

theorem filterMap_optionList_no_ne (l : List Hypothesis)
    (hl : ∀ h ∈ l, h.isNe = false) :
    l.filterMap optionList = (l.filterMap keepSingleton).map (fun x => [x]) := by
  induction l with
  | nil => rfl
  | cons a l ih =>
    have ha := hl a (List.mem_cons_self a l)
    have hl' : ∀ h ∈ l, h.isNe = false := fun h hm => hl h (List.mem_cons_of_mem _ hm)
    rw [List.filterMap_cons, List.filterMap_cons, optionList_of_not_isNe a ha]
    cases hk : keepSingleton a <;> simp [hk, ih hl']

theorem toInequality_relHyp (k : RelKind) (L R : LinExpr) :
    toInequality (relHyp k L R) = relIneq k L R := by
  cases k <;> rfl

theorem optionList_relHyp (k : RelKind) (L R : LinExpr) :
    optionList (relHyp k L R) = some [relHyp k L R] := by
  cases k <;> rfl

theorem relHyp_ne_sFalse (k : RelKind) (L R : LinExpr) :
    relHyp k L R ≠ Hypothesis.sFalse := by
  cases k <;> simp [relHyp]

theorem relIneq_of_allreal (k : RelKind) (L R : LinExpr)
    (hreal : ∀ p ∈ (LinExpr.sub L R).collect, p.1.is_real = some true) :
    relIneq k L R = some ⟨(LinExpr.sub L R).collect, k, -((LinExpr.sub L R).const)⟩ := by
  simp only [relIneq]
  rw [if_pos (List.all_eq_true.mpr (fun p hp => by simpa using hreal p hp))]

theorem relIneq_eq_none_of_nonreal (k : RelKind) (L R : LinExpr) (p : Var × ℚ)
    (hp : p ∈ (LinExpr.sub L R).collect) (hnr : ¬p.1.is_real = some true) :
    relIneq k L R = none := by
  have hcond : ¬((LinExpr.sub L R).collect.all
      (fun p => decide (p.1.is_real = some true)) = true) := by
    intro hall
    exact hnr (by simpa using List.all_eq_true.mp hall p hp)
  simp only [relIneq]
  rw [if_neg hcond]

theorem mkLt_eq_lt (a b : LinExpr) (h : (LinExpr.sub a b).isNumber ≠ true) :
    mkLt a b = Hypothesis.lt a b := by
  simp only [mkLt]
  rw [if_neg h]

/-! ### The verdict is unchanged by inserting an inert option list -/

theorem found_insert_inert {κ : Type*} (f : List Inequality → Bool × κ)
    (A B : List (List Hypothesis)) (opts : List Hypothesis) (c₀ : Hypothesis)
    (hc₀ : c₀ ∈ opts)
    (hinert : ∀ c ∈ opts, toInequality c = none ∧ c ≠ Hypothesis.sFalse) :
    (runScenarios f ((cartProd (A ++ opts :: B)).map List.dedup)).found =
      (runScenarios f ((cartProd (A ++ B)).map List.dedup)).found := by
  have key : (runScenarios f ((cartProd (A ++ opts :: B)).map List.dedup)).found = true ↔
      (runScenarios f ((cartProd (A ++ B)).map List.dedup)).found = true := by
    rw [runScenarios_found_iff, runScenarios_found_iff]
    constructor
    · rintro ⟨sc, hsc, hnf, hfeas⟩
      obtain ⟨ch, hch, rfl⟩ := List.mem_map.mp hsc
      obtain ⟨xs, hxs, t, ht, rfl⟩ := (mem_cartProd_append _ _ _).mp hch
      obtain ⟨c, hc, ys, hys, rfl⟩ := (mem_cartProd_cons _ _ _).mp ht
      obtain ⟨hcnone, hcne⟩ := hinert c hc
      refine ⟨(xs ++ ys).dedup,
        List.mem_map.mpr ⟨xs ++ ys, (mem_cartProd_append _ _ _).mpr ⟨xs, hxs, ys, hys, rfl⟩, rfl⟩,
        ?_, ?_⟩
      · intro hmem
        apply hnf
        rw [List.mem_dedup] at hmem ⊢
        rcases List.mem_append.mp hmem with hm | hm
        · exact List.mem_append.mpr (Or.inl hm)
        · exact List.mem_append.mpr (Or.inr (List.mem_cons_of_mem _ hm))
      · show (f (scenarioIneqs (xs ++ ys).dedup)).1 = true
        have : scenarioIneqs (xs ++ c :: ys).dedup = scenarioIneqs (xs ++ ys).dedup :=
          filterMap_dedup_middle_none toInequality c hcnone xs ys
        rw [← this]
        exact hfeas
    · rintro ⟨sc, hsc, hnf, hfeas⟩
      obtain ⟨ch, hch, rfl⟩ := List.mem_map.mp hsc
      obtain ⟨xs, hxs, ys, hys, rfl⟩ := (mem_cartProd_append _ _ _).mp hch
      obtain ⟨hcnone, hcne⟩ := hinert c₀ hc₀
      refine ⟨(xs ++ c₀ :: ys).dedup,
        List.mem_map.mpr ⟨xs ++ c₀ :: ys,
          (mem_cartProd_append _ _ _).mpr
            ⟨xs, hxs, c₀ :: ys, (mem_cartProd_cons _ _ _).mpr ⟨c₀, hc₀, ys, hys, rfl⟩, rfl⟩,
          rfl⟩,
        ?_, ?_⟩
      · intro hmem
        rw [List.mem_dedup] at hmem
        rcases List.mem_append.mp hmem with hm | hm
        · exact hnf (List.mem_dedup.mpr (List.mem_append.mpr (Or.inl hm)))
        · rcases List.mem_cons.mp hm with e | hm'
          · exact hcne e.symm
          · exact hnf (List.mem_dedup.mpr (List.mem_append.mpr (Or.inr hm')))
      · show (f (scenarioIneqs (xs ++ c₀ :: ys).dedup)).1 = true
        have heq : scenarioIneqs (xs ++ c₀ :: ys).dedup = scenarioIneqs (xs ++ ys).dedup :=
          filterMap_dedup_middle_none toInequality c₀ hcnone xs ys
        rw [heq]
        exact hfeas
  cases h1 : (runScenarios f ((cartProd (A ++ opts :: B)).map List.dedup)).found <;>
    cases h2 : (runScenarios f ((cartProd (A ++ B)).map List.dedup)).found <;>
      simp_all

theorem scenario_found_insert_inert {κ : Type*} (f : List Inequality → Bool × κ)
    (goal : Hypothesis) (l₁ l₂ : List Hypothesis) (h : Hypothesis)
    (opts : List Hypothesis) (hopt : optionList h = some opts)
    (c₀ : Hypothesis) (hc₀ : c₀ ∈ opts)
    (hinert : ∀ c ∈ opts, toInequality c = none ∧ c ≠ Hypothesis.sFalse)
    (h1 : h ∉ l₁) (h2 : h ∉ l₂) (hg : h ≠ sym_not goal) :
    (runScenarios f (scenarioList ⟨l₁ ++ h :: l₂, goal⟩)).found =
      (runScenarios f (scenarioList ⟨l₁ ++ l₂, goal⟩)).found := by
  obtain ⟨D₁, D₂, e1, e2⟩ := dedup_middle_split h l₁ (l₂ ++ [sym_not goal]) h1 (by
    intro hm
    rcases List.mem_append.mp hm with hm | hm
    · exact h2 hm
    · exact hg (List.mem_singleton.mp hm))
  have hg1 : gatherHypotheses ⟨l₁ ++ h :: l₂, goal⟩ = D₁ ++ h :: D₂ := by
    show ((l₁ ++ h :: l₂) ++ [sym_not goal]).dedup = _
    rw [List.append_assoc, List.cons_append, e1]
  have hg2 : gatherHypotheses ⟨l₁ ++ l₂, goal⟩ = D₁ ++ D₂ := by
    show ((l₁ ++ l₂) ++ [sym_not goal]).dedup = _
    rw [List.append_assoc, e2]
  simp only [scenarioList, hg1, hg2, List.filterMap_append, List.filterMap_cons, hopt]
  exact found_insert_inert f _ _ opts c₀ hc₀ hinert

theorem activate_eq_nil_iff {κ : Type*} (f : List Inequality → Bool × κ) (s : ProofState) :
    activate f s = [] ↔ (runScenarios f (scenarioList s)).found = false := by
  unfold activate
  by_cases h : (runScenarios f (scenarioList s)).found = true
  · rw [if_pos h, h]
    simp
  · rw [if_neg h]
    simp [Bool.not_eq_true] at h
    simp [h]

/-! ### Claim theorems -/

/-- C1: for every invocation of `activate`, if some enumerated scenario is
reported feasible by the oracle then `activate` returns the single-element
list holding an unchanged copy of the incoming proof state, and if no
enumerated scenario is reported feasible it returns the empty list.
Scenarios holding the statically-false constraint are skipped and never
reported feasible, so "reported feasible" is existence of a scenario
without the false constraint whose inequality system the oracle accepts. -/
theorem activate_refuted_iff_feasible {κ : Type*} (f : List Inequality → Bool × κ)
    (s : ProofState) :
    (activate f s = [s.copy] ↔
        ∃ sc ∈ scenarioList s, Hypothesis.sFalse ∉ sc ∧ (f (scenarioIneqs sc)).1 = true) ∧
      (activate f s = [] ↔
        ¬∃ sc ∈ scenarioList s, Hypothesis.sFalse ∉ sc ∧ (f (scenarioIneqs sc)).1 = true) := by
  have hfound := runScenarios_found_iff f (scenarioList s)
  unfold activate
  by_cases hb : (runScenarios f (scenarioList s)).found = true
  · rw [if_pos hb]
    exact ⟨iff_of_true rfl (hfound.mp hb),
      iff_of_false (by simp) (fun hn => hn (hfound.mp hb))⟩
  · rw [if_neg hb]
    have hnex : ¬∃ sc ∈ scenarioList s,
        Hypothesis.sFalse ∉ sc ∧ (f (scenarioIneqs sc)).1 = true :=
      fun hex => hb (hfound.mpr hex)
    exact ⟨iff_of_false (by simp) hnex, iff_of_true rfl hnex⟩

/-- C2: a typed positivity hypothesis on a variable `v` normalizes to the
single constraint `v ≥ 1` when `v` is positive and integer-valued (the
integrality gap), to `v > 0` when `v` is positive but not integer-valued,
to `v ≥ 0` when `v` is merely non-negative, and to no constraint
otherwise. -/
theorem type_positivity_normalization (v : Var) :
    (v.is_positive = some true → v.is_integer = some true →
        toInequality (Hypothesis.type v) = some ⟨[(v, 1)], RelKind.geq, 1⟩) ∧
      (v.is_positive = some true → v.is_integer ≠ some true →
        toInequality (Hypothesis.type v) = some ⟨[(v, 1)], RelKind.gt, 0⟩) ∧
      (v.is_positive ≠ some true → v.is_nonnegative = some true →
        toInequality (Hypothesis.type v) = some ⟨[(v, 1)], RelKind.geq, 0⟩) ∧
      (v.is_positive ≠ some true → v.is_nonnegative ≠ some true →
        toInequality (Hypothesis.type v) = none) := by
  refine ⟨?_, ?_, ?_, ?_⟩ <;> intro h1 h2 <;> simp [toInequality, h1, h2]

/-- Witness for C2 at a positive integer variable. -/
theorem type_positivity_normalization_witness :
    toInequality (Hypothesis.type nVar) = some ⟨[(nVar, 1)], RelKind.geq, 1⟩ :=
  (type_positivity_normalization nVar).1 rfl rfl

/-- C6: a scenario holding a statically-false constraint is dropped before
any oracle interaction: the whole loop outcome (verdict, recorded
certificates, and the log of inequality systems submitted to the oracle)
is the same as if the scenario were not enumerated at all, for every
oracle and every position of the scenario in the enumeration. -/
theorem false_scenario_skipped {κ : Type*} (f : List Inequality → Bool × κ)
    (pre post : List (List Hypothesis)) (sc : List Hypothesis)
    (h : Hypothesis.sFalse ∈ sc) :
    runScenarios f (pre ++ sc :: post) = runScenarios f (pre ++ post) := by
  induction pre with
  | nil =>
    show runScenarios f (sc :: post) = runScenarios f post
    rw [runScenarios, if_pos h]
  | cons t pre ih =>
    show runScenarios f (t :: (pre ++ sc :: post)) = runScenarios f (t :: (pre ++ post))
    simp only [runScenarios, ih]

/-- Witness for C6: a feasible-looking scenario holding the false
constraint is ignored. -/
theorem false_scenario_skipped_witness :
    runScenarios (fun l => (l.isEmpty, Unit.unit))
        [[Hypothesis.sFalse], [Hypothesis.type nVar]] =
      runScenarios (fun l => (l.isEmpty, Unit.unit)) [[Hypothesis.type nVar]] :=
  false_scenario_skipped (fun l => (l.isEmpty, Unit.unit)) []
    [[Hypothesis.type nVar]] [Hypothesis.sFalse] (by decide)

/-- C9: `activate` is a pure function of the incoming proof state; the only
residual state it can return is the unchanged copy of the input (value
equality), so no field of the input is modified and nothing created during
the invocation persists. -/
theorem activate_returns_unchanged_state {κ : Type*}
    (f : List Inequality → Bool × κ) (s : ProofState) :
    (activate f s = [] ∨ activate f s = [s]) ∧ s.copy = s := by
  refine ⟨?_, rfl⟩
  unfold activate
  by_cases h : (runScenarios f (scenarioList s)).found = true
  · right
    rw [if_pos h]
    rfl
  · left
    rw [if_neg h]

/-- C4: once a scenario is reported feasible the loop stops: for any
enumeration `pre ++ sc :: post` in which every queried scenario of `pre`
is infeasible and `sc` is feasible, the verdict is found (Refuted), the
recorded certificates are exactly those of the queried scenarios of `pre`,
and the oracle-call log ends at `sc` — nothing of `post` is ever queried,
whatever `post` is. -/
theorem feasible_short_circuit {κ : Type*} (f : List Inequality → Bool × κ)
    (pre post : List (List Hypothesis)) (sc : List Hypothesis)
    (hpre : ∀ t ∈ pre, Hypothesis.sFalse ∉ t → (f (scenarioIneqs t)).1 = false)
    (hsc : Hypothesis.sFalse ∉ sc) (hfeas : (f (scenarioIneqs sc)).1 = true) :
    runScenarios f (pre ++ sc :: post) =
      ⟨true,
       (pre.filter (fun t => decide (Hypothesis.sFalse ∉ t))).map
         (fun t => (f (scenarioIneqs t)).2),
       ((pre.filter (fun t => decide (Hypothesis.sFalse ∉ t))).map scenarioIneqs)
         ++ [scenarioIneqs sc]⟩ := by
  induction pre with
  | nil =>
    show runScenarios f (sc :: post) = _
    rw [runScenarios, if_neg hsc, if_pos hfeas]
    simp
  | cons t pre ih =>
    have hpre' : ∀ u ∈ pre, Hypothesis.sFalse ∉ u → (f (scenarioIneqs u)).1 = false :=
      fun u hu => hpre u (List.mem_cons_of_mem _ hu)
    have ih' := ih hpre'
    show runScenarios f (t :: (pre ++ sc :: post)) = _
    by_cases hm : Hypothesis.sFalse ∈ t
    · rw [runScenarios, if_pos hm, ih']
      simp [List.filter_cons, hm]
    · have hf : (f (scenarioIneqs t)).1 = false := hpre t (List.mem_cons_self t _) hm
      rw [runScenarios, if_neg hm, if_neg (by simp [hf]), ih']
      simp [List.filter_cons, hm]

/-- Witness for C4: an infeasible scenario, then a feasible one, then a
further scenario that is never queried. -/
theorem feasible_short_circuit_witness :
    runScenarios (fun l => (l.isEmpty, Unit.unit))
        ([[Hypothesis.type nVar]] ++ [Hypothesis.other] :: [[Hypothesis.type nVar]]) =
      ⟨true, [Unit.unit], [[⟨[(nVar, 1)], RelKind.geq, 1⟩], []]⟩ := by
  have h := feasible_short_circuit (fun l => (l.isEmpty, Unit.unit))
    [[Hypothesis.type nVar]] [[Hypothesis.type nVar]] [Hypothesis.other]
    (by decide) (by decide) (by decide)
  exact h.trans (by decide)

/-- C5: an equality or inequality hypothesis `L rel R` all of whose free
variables are real-valued yields exactly one constraint (a single-element
option list) whose coefficient mapping is the coefficients of the free
variables of `L - R`, whose constant is the negation of the pure constant
term of `L - R`, and whose relation is the direct image of `rel`. -/
theorem relational_normalization (k : RelKind) (L R : LinExpr)
    (hreal : ∀ p ∈ (LinExpr.sub L R).collect, p.1.is_real = some true) :
    ∃ q : Inequality,
      toInequality (relHyp k L R) = some q ∧
        q.coeffs = (LinExpr.sub L R).collect ∧
        (∀ v : Var, q.coeffOf v = L.coeffOf v - R.coeffOf v) ∧
        q.const = R.const - L.const ∧
        q.rel = k ∧
        optionList (relHyp k L R) = some [relHyp k L R] := by
  refine ⟨⟨(LinExpr.sub L R).collect, k, -((LinExpr.sub L R).const)⟩, ?_, rfl, ?_, ?_, rfl,
    optionList_relHyp k L R⟩
  · rw [toInequality_relHyp, relIneq_of_allreal k L R hreal]
  · intro v
    show coeffOfPairs (LinExpr.sub L R).collect v = L.coeffOf v - R.coeffOf v
    rw [coeffOfPairs_collect, LinExpr.coeffOf_sub]
  · show -((LinExpr.sub L R).const) = R.const - L.const
    show -(L.const - R.const) = R.const - L.const
    ring

/-- Witness for C5 at the hypothesis `2x + y + 3 <= 4y + 5`: the constraint
is `2x - 3y <= 2`. -/
theorem relational_normalization_witness :
    toInequality (relHyp RelKind.leq ⟨[(xVar, 2), (yVar, 1)], 3⟩ ⟨[(yVar, 4)], 5⟩) =
      some ⟨[(xVar, 2), (yVar, -3)], RelKind.leq, 2⟩ := by
  obtain ⟨q, hq, hcoeffs, hco, hconst, hrel, hopt⟩ :=
    relational_normalization RelKind.leq ⟨[(xVar, 2), (yVar, 1)], 3⟩ ⟨[(yVar, 4)], 5⟩
      (by with_unfolding_all decide)
  cases q with
  | mk c r cst =>
    have hc : c = (LinExpr.sub ⟨[(xVar, 2), (yVar, 1)], 3⟩ ⟨[(yVar, 4)], 5⟩).collect := hcoeffs
    have hr : r = RelKind.leq := hrel
    have hcst : cst = (5 : ℚ) - 3 := hconst
    rw [hq, hc, hr, hcst]
    with_unfolding_all decide

/-- C10: when no gathered hypothesis (the negated goal included) is
recognized, the option collection is empty, the Cartesian product produces
exactly one scenario — the empty constraint set — the oracle is queried
once on the empty system, and the verdict is Refuted exactly when the
oracle reports the empty system feasible; the zero-scenario tautology path
is not taken. -/
theorem no_recognized_hypotheses_single_scenario {κ : Type*}
    (f : List Inequality → Bool × κ) (s : ProofState)
    (hall : ∀ h ∈ gatherHypotheses s, optionList h = none) :
    scenarioList s = [[]] ∧
      (runScenarios f (scenarioList s)).queried = [[]] ∧
      activate f s = (if (f ([] : List Inequality)).1 = true then [s.copy] else []) := by
  have hopts : (gatherHypotheses s).filterMap optionList = [] :=
    List.filterMap_eq_nil_iff.mpr hall
  have hsc : scenarioList s = [[]] := by
    rw [scenarioList, hopts]
    rfl
  have hsi : scenarioIneqs ([] : List Hypothesis) = ([] : List Inequality) := rfl
  have hfound : (runScenarios f ([[]] : List (List Hypothesis))).found
      = (f ([] : List Inequality)).1 := by
    rw [runScenarios, if_neg (by simp), hsi]
    by_cases h : (f ([] : List Inequality)).1 = true
    · rw [if_pos h, h]
    · rw [if_neg h]
      show (runScenarios f []).found = _
      rw [runScenarios]
      exact ((Bool.not_eq_true _).mp h).symm
  refine ⟨hsc, ?_, ?_⟩
  · rw [hsc, runScenarios, if_neg (by simp), hsi]
    by_cases h : (f ([] : List Inequality)).1 = true
    · rw [if_pos h]
    · rw [if_neg h]
      show ([] : List Inequality) :: (runScenarios f []).queried = [[]]
      rfl
  · unfold activate
    rw [hsc, hfound]

/-- Witness for C10: a state whose only gathered hypothesis is
unrecognized, with an oracle accepting the empty system. -/
theorem no_recognized_hypotheses_witness :
    scenarioList ⟨[], Hypothesis.other⟩ = [[]] ∧
      (runScenarios (fun _ => (true, Unit.unit))
        (scenarioList ⟨[], Hypothesis.other⟩)).queried = [[]] ∧
      activate (fun _ => (true, Unit.unit)) ⟨[], Hypothesis.other⟩ =
        [(⟨[], Hypothesis.other⟩ : ProofState)] := by
  have h := no_recognized_hypotheses_single_scenario (fun _ => (true, Unit.unit))
    ⟨[], Hypothesis.other⟩ (by decide)
  exact ⟨h.1, h.2.1, h.2.2.trans (by decide)⟩

/-- C3: a disequality hypothesis `a ≠ b` yields the two-element option list
`[a < b, b < a]`, and when it is the only disequality among the gathered
hypotheses exactly two scenarios are produced, whose constraint sets are
the common set of the other constraints extended by `a < b` in the first
and by `b < a` in the second. -/
theorem ne_case_split (a b : LinExpr) (s : ProofState) (pre post : List Hypothesis)
    (hg : gatherHypotheses s = pre ++ Hypothesis.ne a b :: post)
    (hne : ∀ h ∈ pre ++ post, h.isNe = false)
    (hnum : (LinExpr.sub a b).isNumber ≠ true) :
    optionList (Hypothesis.ne a b) = some [Hypothesis.lt a b, Hypothesis.lt b a] ∧
      scenarioList s =
        [(pre.filterMap keepSingleton ++
            Hypothesis.lt a b :: post.filterMap keepSingleton).dedup,
         (pre.filterMap keepSingleton ++
            Hypothesis.lt b a :: post.filterMap keepSingleton).dedup] ∧
      ((pre.filterMap keepSingleton ++
          Hypothesis.lt a b :: post.filterMap keepSingleton).dedup).toFinset =
        insert (Hypothesis.lt a b)
          (pre.filterMap keepSingleton ++ post.filterMap keepSingleton).toFinset ∧
      ((pre.filterMap keepSingleton ++
          Hypothesis.lt b a :: post.filterMap keepSingleton).dedup).toFinset =
        insert (Hypothesis.lt b a)
          (pre.filterMap keepSingleton ++ post.filterMap keepSingleton).toFinset := by
  have hba : (LinExpr.sub b a).isNumber ≠ true :=
    fun h => hnum ((LinExpr.isNumber_sub_comm a b).mpr h)
  have hlt1 : mkLt a b = Hypothesis.lt a b := mkLt_eq_lt a b hnum
  have hlt2 : mkLt b a = Hypothesis.lt b a := mkLt_eq_lt b a hba
  have hopt : optionList (Hypothesis.ne a b) =
      some [Hypothesis.lt a b, Hypothesis.lt b a] := by
    show some [mkLt a b, mkLt b a] = _
    rw [hlt1, hlt2]
  have hpre' : ∀ h ∈ pre, h.isNe = false :=
    fun h hm => hne h (List.mem_append.mpr (Or.inl hm))
  have hpost' : ∀ h ∈ post, h.isNe = false :=
    fun h hm => hne h (List.mem_append.mpr (Or.inr hm))
  have hfm1 := filterMap_optionList_no_ne pre hpre'
  have hfm2 := filterMap_optionList_no_ne post hpost'
  have hts : ∀ (c : Hypothesis) (K₁ K₂ : List Hypothesis),
      ((K₁ ++ c :: K₂).dedup).toFinset = insert c (K₁ ++ K₂).toFinset := by
    intro c K₁ K₂
    ext x
    simp only [List.mem_toFinset, List.mem_dedup, List.mem_append, List.mem_cons,
      Finset.mem_insert]
    tauto
  refine ⟨hopt, ?_, hts _ _ _, hts _ _ _⟩
  simp only [scenarioList, hg, List.filterMap_append, List.filterMap_cons, hopt, hfm1, hfm2]
  rw [cartProd_singletons_append, cartProd_pair_singletons]
  simp

/-- Witness for C3: the lone disequality `x ≠ y` with an unrecognized goal
produces exactly the two scenarios `{x < y}` and `{y < x}`. -/
theorem ne_case_split_witness :
    scenarioList ⟨[Hypothesis.ne xE yE], Hypothesis.other⟩ =
      [[Hypothesis.lt xE yE], [Hypothesis.lt yE xE]] := by
  have h := ne_case_split xE yE ⟨[Hypothesis.ne xE yE], Hypothesis.other⟩ []
    [Hypothesis.other] (by with_unfolding_all decide) (by decide)
    (by with_unfolding_all decide)
  exact h.2.1.trans (by with_unfolding_all decide)

/-- C7 counterexample: the hypothesis `u = 0` mentions the non-real
quantity `u`, yet its option list is the singleton `[u = 0]`, not the
empty option list the claim asserts (the realness check happens at
constraint generation, not at option extraction). -/
theorem nonreal_option_list_nonempty :
    optionList (Hypothesis.eq uE zeroE) = some [Hypothesis.eq uE zeroE] ∧
      ¬(∀ p ∈ (LinExpr.sub uE zeroE).collect, p.1.is_real = some true) :=
  ⟨rfl, by with_unfolding_all decide⟩

/-- C7 amended: a hypothesis mentioning a non-real quantity still gets a
non-empty option list (a singleton for the five relations, the two-way
split for a disequality), but it contributes no constraint to any
scenario, and the verdict of `activate` is the same as with the
hypothesis omitted from the hypothesis set altogether. -/
theorem nonreal_hypothesis_inert {κ : Type*} (f : List Inequality → Bool × κ)
    (g : Hypothesis) (l₁ l₂ : List Hypothesis) (k : RelKind) (L R : LinExpr)
    (hnr : ∃ p ∈ (LinExpr.sub L R).collect, ¬p.1.is_real = some true) :
    toInequality (relHyp k L R) = none ∧
      optionList (relHyp k L R) = some [relHyp k L R] ∧
      (relHyp k L R ∉ l₁ → relHyp k L R ∉ l₂ → relHyp k L R ≠ sym_not g →
        (runScenarios f (scenarioList ⟨l₁ ++ relHyp k L R :: l₂, g⟩)).found =
            (runScenarios f (scenarioList ⟨l₁ ++ l₂, g⟩)).found ∧
          (activate f ⟨l₁ ++ relHyp k L R :: l₂, g⟩ = [] ↔
            activate f ⟨l₁ ++ l₂, g⟩ = [])) ∧
      (Hypothesis.ne L R ∉ l₁ → Hypothesis.ne L R ∉ l₂ →
        Hypothesis.ne L R ≠ sym_not g →
        (runScenarios f (scenarioList ⟨l₁ ++ Hypothesis.ne L R :: l₂, g⟩)).found =
            (runScenarios f (scenarioList ⟨l₁ ++ l₂, g⟩)).found ∧
          (activate f ⟨l₁ ++ Hypothesis.ne L R :: l₂, g⟩ = [] ↔
            activate f ⟨l₁ ++ l₂, g⟩ = [])) := by
  obtain ⟨p, hp, hnrp⟩ := hnr
  have hti : toInequality (relHyp k L R) = none := by
    rw [toInequality_relHyp]
    exact relIneq_eq_none_of_nonreal k L R p hp hnrp
  have hnonempty : (LinExpr.sub L R).collect ≠ [] := by
    intro h
    rw [h] at hp
    simp at hp
  have hnumLR : (LinExpr.sub L R).isNumber ≠ true := by
    intro h
    exact hnonempty (by simpa [LinExpr.isNumber, List.isEmpty_iff] using h)
  have hnumRL : (LinExpr.sub R L).isNumber ≠ true :=
    fun h => hnumLR ((LinExpr.isNumber_sub_comm L R).mpr h)
  have hltLR : mkLt L R = Hypothesis.lt L R := mkLt_eq_lt L R hnumLR
  have hltRL : mkLt R L = Hypothesis.lt R L := mkLt_eq_lt R L hnumRL
  have hpRL : (p.1, (LinExpr.sub R L).coeffOf p.1) ∈ (LinExpr.sub R L).collect := by
    obtain ⟨h1, h2, h3⟩ := (LinExpr.mem_collect _ p).mp hp
    refine (LinExpr.mem_collect _ _).mpr ⟨?_, rfl, ?_⟩
    · rw [LinExpr.mem_varList_sub] at h1 ⊢
      exact h1.symm
    · show (LinExpr.sub R L).coeffOf p.1 ≠ 0
      rw [LinExpr.coeffOf_sub]
      rw [LinExpr.coeffOf_sub] at h2
      intro hz
      apply h3
      rw [h2]
      linarith
  have htiRL : toInequality (Hypothesis.lt R L) = none :=
    relIneq_eq_none_of_nonreal RelKind.lt R L _ hpRL hnrp
  have htiLR : toInequality (Hypothesis.lt L R) = none :=
    relIneq_eq_none_of_nonreal RelKind.lt L R p hp hnrp
  refine ⟨hti, optionList_relHyp k L R, ?_, ?_⟩
  · intro h1 h2 hg
    have hfound := scenario_found_insert_inert f g l₁ l₂ (relHyp k L R) [relHyp k L R]
      (optionList_relHyp k L R) (relHyp k L R) (List.mem_singleton_self _)
      (by
        intro c hc
        rw [List.mem_singleton.mp hc]
        exact ⟨hti, relHyp_ne_sFalse k L R⟩)
      h1 h2 hg
    refine ⟨hfound, ?_⟩
    rw [activate_eq_nil_iff, activate_eq_nil_iff, hfound]
  · intro h1 h2 hg
    have hopt : optionList (Hypothesis.ne L R) =
        some [Hypothesis.lt L R, Hypothesis.lt R L] := by
      show some [mkLt L R, mkLt R L] = _
      rw [hltLR, hltRL]
    have hfound := scenario_found_insert_inert f g l₁ l₂ (Hypothesis.ne L R)
      [Hypothesis.lt L R, Hypothesis.lt R L] hopt (Hypothesis.lt L R)
      (List.mem_cons_self _ _)
      (by
        intro c hc
        rcases List.mem_cons.mp hc with rfl | hc'
        · exact ⟨htiLR, fun hcon => Hypothesis.noConfusion hcon⟩
        · rw [List.mem_singleton.mp hc']
          exact ⟨htiRL, fun hcon => Hypothesis.noConfusion hcon⟩)
      h1 h2 hg
    refine ⟨hfound, ?_⟩
    rw [activate_eq_nil_iff, activate_eq_nil_iff, hfound]

/-- Witness for C7 amended: the non-real hypothesis `u = 0` leaves the
verdict identical to the state without it. -/
theorem nonreal_hypothesis_inert_witness :
    (runScenarios (fun _ => (true, Unit.unit))
        (scenarioList ⟨[Hypothesis.eq uE zeroE], Hypothesis.other⟩)).found =
      (runScenarios (fun _ => (true, Unit.unit))
        (scenarioList ⟨[], Hypothesis.other⟩)).found := by
  have h := nonreal_hypothesis_inert (fun _ => (true, Unit.unit)) Hypothesis.other
    [] [] RelKind.eq uE zeroE (by with_unfolding_all decide)
  exact (h.2.2.1 (by decide) (by decide) (by decide)).1

/-- C8 counterexample: with the two hypotheses `x ≠ y` and `y ≠ x` the
enumeration produces four scenarios of which the first and the fourth are
equal as sets of constraints (though distinct as lists), so the produced
scenarios are not duplicate-free across the enumeration. -/
theorem duplicate_scenarios_cex :
    scenarioList ⟨[Hypothesis.ne xE yE, Hypothesis.ne yE xE], Hypothesis.other⟩ =
        [[Hypothesis.lt xE yE, Hypothesis.lt yE xE], [Hypothesis.lt xE yE],
         [Hypothesis.lt yE xE], [Hypothesis.lt yE xE, Hypothesis.lt xE yE]] ∧
      ([Hypothesis.lt xE yE, Hypothesis.lt yE xE] : List Hypothesis).toFinset =
        ([Hypothesis.lt yE xE, Hypothesis.lt xE yE] : List Hypothesis).toFinset := by
  with_unfolding_all decide

/-- C8 amended: within each scenario duplicate constraints drawn by
different choices are collapsed, so every produced scenario is
duplicate-free; across the enumeration, however, two distinct choices may
produce scenarios that are equal as sets, and such repetitions are kept. -/
theorem scenario_within_dedup (s : ProofState) (sc : List Hypothesis)
    (h : sc ∈ scenarioList s) : sc.Nodup := by
  obtain ⟨ch, hch, rfl⟩ := List.mem_map.mp h
  exact List.nodup_dedup ch

/-- Witness for C8 amended at a concrete produced scenario. -/
theorem scenario_within_dedup_witness :
    ([Hypothesis.lt xE yE] : List Hypothesis).Nodup :=
  scenario_within_dedup ⟨[Hypothesis.ne xE yE, Hypothesis.ne yE xE], Hypothesis.other⟩
    [Hypothesis.lt xE yE] (by with_unfolding_all decide)

end Estimates
